import Mathlib

/-
Shallow embedding of the in-memory JWK key cacher of auth0-community/auth0-go
(src/key_cacher.go), together with proofs of the specification claims.

Modelling conventions:
  * Go time instants and durations are modelled as unbounded integers
    (time.Time.After is strict <, time.Time.Before is strict <,
    t.Add(d) is t + d).
  * time.Now() is made explicit: each operation receives the clock values
    the Go code would read.  Add performs its insertions at time tIns and
    runs handleOverflow at time tOvf (in Go these are separate time.Now()
    calls of a monotone clock, so tIns ≤ tOvf, and tIns < tOvf whenever the
    clock advanced in between).
  * The Go map mkc.entries is modelled as an association list; Go map
    iteration order (used by handleOverflow's scan) is modelled as list
    order.  Go map reads/writes/deletes are mapGet/mapInsert/mapDelete.
  * jose.JSONWebKey is reduced to the fields the cacher inspects: KeyID and
    the Key material, where Go's untyped nil Key is Option.none.  The Go
    zero value jose.JSONWebKey{} is ⟨"", none⟩.
  * The Go (⋆jose.JSONWebKey, error) return pair is an Except value over a
    closed error enumeration: ErrNoKeyFound and ErrKeyExpired.
-/

namespace auth0

/-- Key record of a JSON web key set: an identifier and opaque key material
(none models Go's nil Key). -/
structure JSONWebKey where
  KeyID : String
  Key : Option String
deriving DecidableEq, Repr

/-- Entry of the cache mapping: insertion time plus the stored web key
(Go: struct with addedAt time.Time and an embedded jose.JSONWebKey). -/
structure keyCacherEntry where
  addedAt : Int
  webKey : JSONWebKey
deriving DecidableEq, Repr

/-- Lookup in the association list modelling a Go map read. -/
def mapGet (k : String) : List (String × keyCacherEntry) → Option keyCacherEntry
  | [] => none
  | (k', v) :: rest => if k' = k then some v else mapGet k rest

/-- Insert/overwrite modelling a Go map write. -/
def mapInsert (k : String) (v : keyCacherEntry) :
    List (String × keyCacherEntry) → List (String × keyCacherEntry)
  | [] => [(k, v)]
  | (k', v') :: rest => if k' = k then (k, v) :: rest else (k', v') :: mapInsert k v rest

/-- Removal modelling a Go map delete. -/
def mapDelete (k : String) :
    List (String × keyCacherEntry) → List (String × keyCacherEntry)
  | [] => []
  | (k', v') :: rest => if k' = k then rest else (k', v') :: mapDelete k rest

/-- Go maps have no duplicate keys; states reachable from the constructors
satisfy this. -/
def nodupKeys (l : List (String × keyCacherEntry)) : Prop :=
  l.Pairwise (fun a b => a.1 ≠ b.1)

/-- Error value ErrNoKeyFound / ErrKeyExpired of key_cacher.go. -/
inductive CacheErr where
  | noKeyFound
  | keyExpired
deriving DecidableEq, Repr

/-- Configuring with MaxAgeNoCheck will skip key expiry check. -/
def MaxAgeNoCheck : Int := -1

/-- Configuring with MaxSizeNoCheck will skip key cache size check. -/
def MaxSizeNoCheck : Int := -1

/-- The memoryKeyCacher struct: entries map plus the two configuration
scalars fixed at construction. -/
structure memoryKeyCacher where
  entries : List (String × keyCacherEntry)
  maxAge : Int
  maxSize : Int
deriving DecidableEq, Repr

/-- NewMemoryKeyCacher creates a new key cacher with option to set max age
of cached keys and max size of the cache. -/
def NewMemoryKeyCacher (maxAge maxSize : Int) : memoryKeyCacher :=
  { entries := [], maxAge := maxAge, maxSize := maxSize }

/-- newMemoryPersistentKeyCacher constructs the persistent-mode cacher. -/
def newMemoryPersistentKeyCacher : memoryKeyCacher :=
  { entries := [], maxAge := MaxAgeNoCheck, maxSize := MaxSizeNoCheck }

/-- keyIsExpired deletes the key from cache if it is expired.
Go: time.Now().After(mkc.entries[keyID].addedAt.Add(mkc.maxAge)); a read of
a missing key yields the zero time, modelled by the default 0. -/
def keyIsExpired (now : Int) (mkc : memoryKeyCacher) (keyID : String) :
    Bool × memoryKeyCacher :=
  let addedAt := ((mapGet keyID mkc.entries).map keyCacherEntry.addedAt).getD 0
  if addedAt + mkc.maxAge < now then
    (true, { mkc with entries := mapDelete keyID mkc.entries })
  else
    (false, mkc)

/-- Get obtains a key from the cache, and checks if the key is expired.
The short-circuit mkc.maxAge == MaxAgeNoCheck || !mkc.keyIsExpired(keyID)
is rendered as a nested if, so keyIsExpired (and its deletion side effect)
runs only when the max-age sentinel is not set. -/
def Get (now : Int) (mkc : memoryKeyCacher) (keyID : String) :
    Except CacheErr JSONWebKey × memoryKeyCacher :=
  match mapGet keyID mkc.entries with
  | some searchKey =>
    if mkc.maxAge = MaxAgeNoCheck then
      (Except.ok searchKey.webKey, mkc)
    else
      let r := keyIsExpired now mkc keyID
      if r.1 then
        (Except.error CacheErr.keyExpired, r.2)
      else
        (Except.ok searchKey.webKey, r.2)
  | none => (Except.error CacheErr.noKeyFound, mkc)

/-- The running assignment addingKey = key performed by Add's loop for each
candidate whose KeyID equals the requested keyID, starting from the
accumulator acc. -/
def findAddingKeyFrom (keyID : String) (acc : JSONWebKey) :
    List JSONWebKey → JSONWebKey
  | [] => acc
  | key :: rest =>
      findAddingKeyFrom keyID (if key.KeyID = keyID then key else acc) rest

/-- The addingKey value Add's loop computes; the initial value is the zero
jose.JSONWebKey (KeyID "", nil Key). -/
def findAddingKey (keyID : String) (downloadedKeys : List JSONWebKey) : JSONWebKey :=
  findAddingKeyFrom keyID { KeyID := "", Key := none } downloadedKeys

/-- The unconditional insertions Add's loop performs when maxSize = -1:
every candidate is written to the map keyed by its own KeyID. -/
def insertAll (tIns : Int) :
    List JSONWebKey → List (String × keyCacherEntry) → List (String × keyCacherEntry)
  | [], es => es
  | key :: rest, es => insertAll tIns rest (mapInsert key.KeyID ⟨tIns, key⟩ es)

/-- The scan of handleOverflow's loop: fold over the entries keeping the
key and time of the entry with the earliest addedAt strictly before the
accumulator time (Go: entry.addedAt.Before(latestAddedTime)).  The initial
accumulator is the zero-value oldestEntryKeyID "" and latestAddedTime =
time.Now(). -/
def oldestScan (acc : String × Int) :
    List (String × keyCacherEntry) → String × Int
  | [] => acc
  | (k, e) :: rest =>
      oldestScan (if e.addedAt < acc.2 then (k, e.addedAt) else acc) rest

/-- handleOverflow deletes the oldest key from the cache if overflowed. -/
def handleOverflow (tOvf : Int) (mkc : memoryKeyCacher) : memoryKeyCacher :=
  if mkc.maxSize < (mkc.entries.length : Int) then
    let victim := oldestScan ("", tOvf) mkc.entries
    { mkc with entries := mapDelete victim.1 mkc.entries }
  else
    mkc

/-- Add adds a key into the cache and handles overflow.  The Go loop both
selects addingKey and (when maxSize == -1) inserts every candidate; the two
effects are independent, so they are rendered as findAddingKey and
insertAll.  tIns is the insertion time.Now(), tOvf the one handleOverflow
reads. -/
def Add (tIns tOvf : Int) (mkc : memoryKeyCacher) (keyID : String)
    (downloadedKeys : List JSONWebKey) :
    Except CacheErr JSONWebKey × memoryKeyCacher :=
  let addingKey := findAddingKey keyID downloadedKeys
  let mkc1 :=
    if mkc.maxSize = MaxSizeNoCheck then
      { mkc with entries := insertAll tIns downloadedKeys mkc.entries }
    else
      mkc
  if addingKey.Key ≠ none then
    if mkc.maxSize ≠ MaxSizeNoCheck then
      let mkc2 :=
        { mkc1 with entries := mapInsert addingKey.KeyID ⟨tIns, addingKey⟩ mkc1.entries }
      (Except.ok addingKey, handleOverflow tOvf mkc2)
    else
      (Except.ok addingKey, mkc1)
  else
    (Except.error CacheErr.noKeyFound, mkc1)

/-! Helper lemmas about the association-list map operations. -/

theorem mapGet_mapInsert_self (k : String) (v : keyCacherEntry)
    (l : List (String × keyCacherEntry)) :
    mapGet k (mapInsert k v l) = some v := by
  induction l with
  | nil => simp [mapGet, mapInsert]
  | cons p rest ih =>
    obtain ⟨pk, pv⟩ := p
    by_cases h : pk = k
    · simp [mapGet, mapInsert, h]
    · simp [mapGet, mapInsert, h, ih]

theorem mapGet_mapInsert_ne (k k' : String) (v : keyCacherEntry)
    (l : List (String × keyCacherEntry)) (h : k' ≠ k) :
    mapGet k (mapInsert k' v l) = mapGet k l := by
  induction l with
  | nil => simp [mapGet, mapInsert, h]
  | cons p rest ih =>
    obtain ⟨pk, pv⟩ := p
    by_cases hp : pk = k'
    · subst hp
      simp [mapGet, mapInsert, h]
    · by_cases hk : pk = k
      · have hk' : ¬k = k' := fun e => h e.symm
        simp [mapGet, mapInsert, hp, hk, hk']
      · simp [mapGet, mapInsert, hp, hk, ih]

theorem mapGet_mapDelete_ne (k k' : String)
    (l : List (String × keyCacherEntry)) (h : k' ≠ k) :
    mapGet k (mapDelete k' l) = mapGet k l := by
  induction l with
  | nil => simp [mapDelete]
  | cons p rest ih =>
    obtain ⟨pk, pv⟩ := p
    by_cases hp : pk = k'
    · subst hp
      simp [mapGet, mapDelete, h]
    · by_cases hk : pk = k
      · have hk' : ¬k = k' := fun e => h e.symm
        simp [mapGet, mapDelete, hp, hk, hk']
      · simp [mapGet, mapDelete, hp, hk, ih]

theorem mem_of_mapGet_eq_some (k : String) (e : keyCacherEntry)
    (l : List (String × keyCacherEntry)) (h : mapGet k l = some e) :
    (k, e) ∈ l := by
  induction l with
  | nil => simp [mapGet] at h
  | cons p rest ih =>
    obtain ⟨pk, pv⟩ := p
    by_cases hp : pk = k
    · simp only [mapGet, hp, if_pos] at h
      simp_all
    · simp only [mapGet, hp, if_neg, not_false_iff] at h
      exact List.mem_cons_of_mem _ (ih h)

theorem mapGet_ne_none_of_mem (k : String) (e : keyCacherEntry)
    (l : List (String × keyCacherEntry)) (h : (k, e) ∈ l) :
    mapGet k l ≠ none := by
  induction l with
  | nil => simp at h
  | cons p rest ih =>
    obtain ⟨pk, pv⟩ := p
    rcases List.mem_cons.1 h with h1 | h1
    · have : pk = k := by cases h1; rfl
      simp [mapGet, this]
    · by_cases hp : pk = k
      · simp [mapGet, hp]
      · simp [mapGet, hp, ih h1]

theorem mapGet_mapDelete_self (k : String)
    (l : List (String × keyCacherEntry)) (h : nodupKeys l) :
    mapGet k (mapDelete k l) = none := by
  induction l with
  | nil => simp [mapGet, mapDelete]
  | cons p rest ih =>
    obtain ⟨pk, pv⟩ := p
    rcases List.pairwise_cons.1 h with ⟨hp, hrest⟩
    by_cases hk : pk = k
    · subst hk
      cases hg : mapGet pk rest with
      | none => simp [mapDelete, hg]
      | some e =>
        exfalso
        exact hp (pk, e) (mem_of_mapGet_eq_some _ _ _ hg) rfl
    · simp [mapGet, mapDelete, hk, ih hrest]

theorem length_mapInsert (k : String) (v : keyCacherEntry)
    (l : List (String × keyCacherEntry)) :
    (mapInsert k v l).length = l.length ∨
      (mapInsert k v l).length = l.length + 1 := by
  induction l with
  | nil => simp [mapInsert]
  | cons p rest ih =>
    obtain ⟨pk, pv⟩ := p
    by_cases hp : pk = k
    · simp [mapInsert, hp]
    · rcases ih with h | h <;> simp [mapInsert, hp, h]

theorem length_mapDelete (k : String)
    (l : List (String × keyCacherEntry)) (h : mapGet k l ≠ none) :
    (mapDelete k l).length + 1 = l.length := by
  induction l with
  | nil => simp [mapGet] at h
  | cons p rest ih =>
    obtain ⟨pk, pv⟩ := p
    by_cases hp : pk = k
    · simp [mapDelete, hp]
    · have h' : mapGet k rest ≠ none := by
        simpa [mapGet, hp] using h
      have := ih h'
      simp only [mapDelete, hp, if_neg, not_false_iff, List.length_cons]
      omega

/-! Helper lemmas about the overflow victim scan. -/

theorem oldestScan_snd_le (l : List (String × keyCacherEntry)) :
    ∀ acc : String × Int, (oldestScan acc l).2 ≤ acc.2 := by
  induction l with
  | nil =>
    intro acc
    simp [oldestScan]
  | cons p rest ih =>
    intro acc
    obtain ⟨pk, pe⟩ := p
    simp only [oldestScan]
    refine le_trans (ih _) ?_
    by_cases h : pe.addedAt < acc.2
    · simp only [h, if_pos]
      omega
    · simp [h]

theorem oldestScan_snd_le_mem (l : List (String × keyCacherEntry)) :
    ∀ acc : String × Int, ∀ p ∈ l, (oldestScan acc l).2 ≤ p.2.addedAt := by
  induction l with
  | nil =>
    intro acc p hp
    simp at hp
  | cons q rest ih =>
    intro acc p hp
    obtain ⟨qk, qe⟩ := q
    rcases List.mem_cons.1 hp with h1 | h1
    · subst h1
      simp only [oldestScan]
      refine le_trans (oldestScan_snd_le _ _) ?_
      by_cases h : qe.addedAt < acc.2
      · simp [h]
      · simp only [h, if_neg, not_false_iff]
        omega
    · simp only [oldestScan]
      exact ih _ p h1

theorem oldestScan_eq_or_mem (l : List (String × keyCacherEntry)) :
    ∀ acc : String × Int, oldestScan acc l = acc ∨
      ∃ p ∈ l, oldestScan acc l = (p.1, p.2.addedAt) := by
  induction l with
  | nil =>
    intro acc
    left
    simp [oldestScan]
  | cons q rest ih =>
    intro acc
    obtain ⟨qk, qe⟩ := q
    simp only [oldestScan]
    rcases ih (if qe.addedAt < acc.2 then (qk, qe.addedAt) else acc) with h | h
    · by_cases hq : qe.addedAt < acc.2
      · right
        exact ⟨(qk, qe), List.mem_cons_self _ _, by simpa [hq] using h⟩
      · left
        simpa [hq] using h
    · right
      rcases h with ⟨p, hp, hres⟩
      exact ⟨p, List.mem_cons_of_mem _ hp, hres⟩

/-! Helper lemmas about the persistent-mode bulk insertion. -/

theorem mapGet_insertAll_not_mem (t : Int) (j : String) :
    ∀ ks : List JSONWebKey, ∀ es, (∀ d ∈ ks, d.KeyID ≠ j) →
      mapGet j (insertAll t ks es) = mapGet j es := by
  intro ks
  induction ks with
  | nil =>
    intro es _
    simp [insertAll]
  | cons key rest ih =>
    intro es h
    simp only [insertAll]
    rw [ih _ fun d hd => h d (List.mem_cons_of_mem _ hd)]
    exact mapGet_mapInsert_ne _ _ _ _ (h key (List.mem_cons_self _ _))

theorem mapGet_insertAll_mem (t : Int) (c : JSONWebKey) :
    ∀ ks : List JSONWebKey, (ks.Pairwise fun a b => a.KeyID ≠ b.KeyID) →
      c ∈ ks → ∀ es, mapGet c.KeyID (insertAll t ks es) = some ⟨t, c⟩ := by
  intro ks
  induction ks with
  | nil =>
    intro _ hc
    simp at hc
  | cons key rest ih =>
    intro hp hc es
    rcases List.pairwise_cons.1 hp with ⟨hhead, hrest⟩
    rcases List.mem_cons.1 hc with h1 | h1
    · subst h1
      simp only [insertAll]
      rw [mapGet_insertAll_not_mem _ _ _ _ fun d hd => (hhead d hd).symm]
      exact mapGet_mapInsert_self _ _ _
    · simp only [insertAll]
      exact ih hrest h1 _

/-! Helper lemmas about the addingKey selection of Add's loop. -/

theorem findAddingKeyFrom_no_match (keyID : String) :
    ∀ ks : List JSONWebKey, (∀ d ∈ ks, d.KeyID ≠ keyID) →
      ∀ acc, findAddingKeyFrom keyID acc ks = acc := by
  intro ks
  induction ks with
  | nil =>
    intro _ acc
    simp [findAddingKeyFrom]
  | cons key rest ih =>
    intro h acc
    simp only [findAddingKeyFrom, h key (List.mem_cons_self _ _), if_neg,
      not_false_iff]
    exact ih (fun d hd => h d (List.mem_cons_of_mem _ hd)) acc

theorem findAddingKeyFrom_match (keyID : String) (c : JSONWebKey) :
    ∀ ks : List JSONWebKey, (ks.Pairwise fun a b => a.KeyID ≠ b.KeyID) →
      c ∈ ks → c.KeyID = keyID →
      ∀ acc, findAddingKeyFrom keyID acc ks = c := by
  intro ks
  induction ks with
  | nil =>
    intro _ hc
    simp at hc
  | cons key rest ih =>
    intro hp hc hk acc
    rcases List.pairwise_cons.1 hp with ⟨hhead, hrest⟩
    rcases List.mem_cons.1 hc with h1 | h1
    · subst h1
      simp only [findAddingKeyFrom, hk, if_pos]
      refine findAddingKeyFrom_no_match _ _ (fun d hd hdk => ?_) _
      exact hhead d hd (hk ▸ hdk).symm
    · simp only [findAddingKeyFrom]
      exact ih hrest h1 hk _

theorem findAddingKeyFrom_cases (keyID : String) :
    ∀ ks : List JSONWebKey, ∀ acc, findAddingKeyFrom keyID acc ks = acc ∨
      ∃ c ∈ ks, findAddingKeyFrom keyID acc ks = c ∧ c.KeyID = keyID := by
  intro ks
  induction ks with
  | nil =>
    intro acc
    left
    simp [findAddingKeyFrom]
  | cons key rest ih =>
    intro acc
    simp only [findAddingKeyFrom]
    by_cases hk : key.KeyID = keyID
    · rcases ih (if key.KeyID = keyID then key else acc) with h | h
      · right
        exact ⟨key, List.mem_cons_self _ _, by simpa [hk] using h, hk⟩
      · rcases h with ⟨c, hc, hres, hck⟩
        right
        exact ⟨c, List.mem_cons_of_mem _ hc, hres, hck⟩
    · rcases ih (if key.KeyID = keyID then key else acc) with h | h
      · left
        simpa [hk] using h
      · rcases h with ⟨c, hc, hres, hck⟩
        right
        exact ⟨c, List.mem_cons_of_mem _ hc, hres, hck⟩

theorem oldestScan_found (t0 : Int) (l : List (String × keyCacherEntry))
    (h : ∃ p ∈ l, p.2.addedAt < t0) :
    ∃ p ∈ l, oldestScan ("", t0) l = (p.1, p.2.addedAt) := by
  rcases oldestScan_eq_or_mem l ("", t0) with he | he
  · exfalso
    rcases h with ⟨p0, hp0, hlt⟩
    have hle := oldestScan_snd_le_mem l ("", t0) p0 hp0
    rw [he] at hle
    exact absurd hlt (not_lt.2 hle)
  · exact he

/-! Unfolding lemmas splitting Add into its bounded and unbounded shape. -/

theorem Add_bounded (tIns tOvf : Int) (mkc : memoryKeyCacher) (keyID : String)
    (ks : List JSONWebKey) (hms : mkc.maxSize ≠ MaxSizeNoCheck) :
    Add tIns tOvf mkc keyID ks =
      if (findAddingKey keyID ks).Key = none then
        (Except.error CacheErr.noKeyFound, mkc)
      else
        (Except.ok (findAddingKey keyID ks),
          handleOverflow tOvf
            { mkc with
              entries := mapInsert (findAddingKey keyID ks).KeyID
                ⟨tIns, findAddingKey keyID ks⟩ mkc.entries }) := by
  by_cases hk : (findAddingKey keyID ks).Key = none <;>
    simp [Add, hms, hk]

theorem Add_unbounded (tIns tOvf : Int) (mkc : memoryKeyCacher) (keyID : String)
    (ks : List JSONWebKey) (hms : mkc.maxSize = MaxSizeNoCheck) :
    Add tIns tOvf mkc keyID ks =
      (if (findAddingKey keyID ks).Key = none then
          Except.error CacheErr.noKeyFound
        else
          Except.ok (findAddingKey keyID ks),
        { mkc with entries := insertAll tIns ks mkc.entries }) := by
  by_cases hk : (findAddingKey keyID ks).Key = none <;>
    simp [Add, hms, hk]

/-- Claim C1: for every cache constructed in bounded mode (max-size n ≥ 0),
after every Add call (in particular every successful one) the number of
entries in the mapping is at most n: a bounded Add inserts at most one
entry, and the overflow handler removes one victim whenever the count
exceeds n.  The clock hypothesis tIns < tOvf states that handleOverflow's
time.Now() read is strictly after the insertion's. -/
theorem C1_bounded_add_size_invariant (tIns tOvf : Int) (mkc : memoryKeyCacher)
    (keyID : String) (ks : List JSONWebKey)
    (hbound : 0 ≤ mkc.maxSize)
    (hinv : (mkc.entries.length : Int) ≤ mkc.maxSize)
    (hclock : tIns < tOvf) :
    ((Add tIns tOvf mkc keyID ks).2.entries.length : Int) ≤ mkc.maxSize := by
  have hms : mkc.maxSize ≠ MaxSizeNoCheck := by
    simp only [MaxSizeNoCheck]
    omega
  rw [Add_bounded tIns tOvf mkc keyID ks hms]
  by_cases hk : (findAddingKey keyID ks).Key = none
  · simpa [hk] using hinv
  · simp only [hk, if_neg, not_false_iff, if_false]
    set A := findAddingKey keyID ks with hA
    set es2 := mapInsert A.KeyID ⟨tIns, A⟩ mkc.entries with hes2
    have hlen2 : es2.length = mkc.entries.length ∨
        es2.length = mkc.entries.length + 1 := length_mapInsert _ _ _
    by_cases hov : ({ mkc with entries := es2} : memoryKeyCacher).maxSize <
        (es2.length : Int)
    · have hmem : ((A.KeyID, (⟨tIns, A⟩ : keyCacherEntry)) ∈ es2) :=
        mem_of_mapGet_eq_some _ _ _ (mapGet_mapInsert_self A.KeyID ⟨tIns, A⟩ mkc.entries)
      have hvic := oldestScan_found tOvf es2
        ⟨(A.KeyID, ⟨tIns, A⟩), hmem, hclock⟩
      rcases hvic with ⟨p, hp, hscan⟩
      have hpres : mapGet p.1 es2 ≠ none := by
        have : (p.1, p.2) ∈ es2 := by simpa using hp
        exact mapGet_ne_none_of_mem _ _ _ this
      have hdel := length_mapDelete p.1 es2 hpres
      simp only [handleOverflow, hov, if_pos, hscan]
      simp only at hdel ⊢
      omega
    · simp only [handleOverflow, hov, if_neg, not_false_iff]
      simp only at hov ⊢
      omega

/-- Witness for C1 at a concrete bounded cache and Add call. -/
theorem C1_witness :
    0 ≤ (NewMemoryKeyCacher 600 2).maxSize ∧
      (((NewMemoryKeyCacher 600 2).entries.length : Int) ≤
        (NewMemoryKeyCacher 600 2).maxSize) ∧
      (((Add 0 1 (NewMemoryKeyCacher 600 2) "a"
          [⟨"a", some "x"⟩]).2.entries.length : Int) ≤
        (NewMemoryKeyCacher 600 2).maxSize) :=
  ⟨by decide, by decide,
    C1_bounded_add_size_invariant 0 1 (NewMemoryKeyCacher 600 2) "a"
      [⟨"a", some "x"⟩] (by decide) (by decide) (by decide)⟩

instance : DecidableEq (Except CacheErr JSONWebKey) := fun a b =>
  match a, b with
  | Except.ok x, Except.ok y =>
    if h : x = y then isTrue (h ▸ rfl)
    else isFalse fun e => h (Except.ok.inj e)
  | Except.error x, Except.error y =>
    if h : x = y then isTrue (h ▸ rfl)
    else isFalse fun e => h (Except.error.inj e)
  | Except.ok _, Except.error _ => isFalse fun e => Except.noConfusion e
  | Except.error _, Except.ok _ => isFalse fun e => Except.noConfusion e

/-! Shape lemmas for the four possible outcomes of Get. -/

theorem Get_absent (now : Int) (mkc : memoryKeyCacher) (keyID : String)
    (hg : mapGet keyID mkc.entries = none) :
    Get now mkc keyID = (Except.error CacheErr.noKeyFound, mkc) := by
  simp [Get, hg]

theorem Get_hit_noCheck (now : Int) (mkc : memoryKeyCacher) (keyID : String)
    (e : keyCacherEntry) (hg : mapGet keyID mkc.entries = some e)
    (hA : mkc.maxAge = MaxAgeNoCheck) :
    Get now mkc keyID = (Except.ok e.webKey, mkc) := by
  simp [Get, hg, hA]

theorem Get_hit_fresh (now : Int) (mkc : memoryKeyCacher) (keyID : String)
    (e : keyCacherEntry) (hg : mapGet keyID mkc.entries = some e)
    (hA : mkc.maxAge ≠ MaxAgeNoCheck)
    (hfresh : now ≤ e.addedAt + mkc.maxAge) :
    Get now mkc keyID = (Except.ok e.webKey, mkc) := by
  have hc : ¬(e.addedAt + mkc.maxAge < now) := not_lt.2 hfresh
  simp [Get, keyIsExpired, hg, hA, hc]

theorem Get_expired (now : Int) (mkc : memoryKeyCacher) (keyID : String)
    (e : keyCacherEntry) (hg : mapGet keyID mkc.entries = some e)
    (hA : mkc.maxAge ≠ MaxAgeNoCheck)
    (hold : e.addedAt + mkc.maxAge < now) :
    Get now mkc keyID =
      (Except.error CacheErr.keyExpired,
        { mkc with entries := mapDelete keyID mkc.entries }) := by
  simp [Get, keyIsExpired, hg, hA, hold]

/-- Claim C8: for every identifier with no entry in the mapping, Get fails
with NotFound, returns no key material, and leaves the cache unchanged. -/
theorem C8_get_missing_notfound (now : Int) (mkc : memoryKeyCacher)
    (keyID : String) (h : mapGet keyID mkc.entries = none) :
    Get now mkc keyID = (Except.error CacheErr.noKeyFound, mkc) :=
  Get_absent now mkc keyID h

/-- Witness for C8 on a freshly constructed cache and an identifier never
added. -/
theorem C8_witness :
    mapGet "missing" (NewMemoryKeyCacher 600 3).entries = none ∧
      Get 0 (NewMemoryKeyCacher 600 3) "missing" =
        (Except.error CacheErr.noKeyFound, NewMemoryKeyCacher 600 3) :=
  ⟨by decide, C8_get_missing_notfound 0 (NewMemoryKeyCacher 600 3) "missing"
    (by decide)⟩

/-- Sample key material used by the concrete witnesses below. -/
def sampleKey : JSONWebKey := ⟨"a", some "K"⟩

/-- Sample cache: one entry for "a" inserted at time 0, max-age 5,
max-size 3. -/
def sampleCache : memoryKeyCacher := ⟨[("a", ⟨0, sampleKey⟩)], 5, 3⟩

/-- Sample cache with the unbounded max-size sentinel but finite max-age
0. -/
def sampleCacheUnboundedTTL : memoryKeyCacher :=
  ⟨[("a", ⟨0, sampleKey⟩)], 0, MaxSizeNoCheck⟩

/-- Sample cache with the no-expiry max-age sentinel holding a very old
entry. -/
def sampleCacheNoExpiry : memoryKeyCacher :=
  ⟨[("a", ⟨-1000, sampleKey⟩)], MaxAgeNoCheck, 3⟩

/-- Claim C9: frame property of Get.  For every pair of distinct identifiers
j and keyID, Get on keyID leaves the entry for j unchanged; whenever the
outcome is not Expired (a hit or NotFound) the whole cache is unchanged, and
on Expired the only mutation is deleting the looked-up identifier. -/
theorem C9_get_frame (now : Int) (mkc : memoryKeyCacher) (keyID : String) :
    (∀ j, j ≠ keyID →
      mapGet j ((Get now mkc keyID).2).entries = mapGet j mkc.entries) ∧
      ((Get now mkc keyID).1 ≠ Except.error CacheErr.keyExpired →
        (Get now mkc keyID).2 = mkc) ∧
      ((Get now mkc keyID).1 = Except.error CacheErr.keyExpired →
        (Get now mkc keyID).2 =
          { mkc with entries := mapDelete keyID mkc.entries }) := by
  cases hg : mapGet keyID mkc.entries with
  | none =>
    rw [Get_absent now mkc keyID hg]
    refine ⟨fun j hj => rfl, fun _ => rfl, fun hc => ?_⟩
    exact absurd hc (by simp)
  | some e =>
    by_cases hA : mkc.maxAge = MaxAgeNoCheck
    · rw [Get_hit_noCheck now mkc keyID e hg hA]
      refine ⟨fun j hj => rfl, fun _ => rfl, fun hc => ?_⟩
      exact absurd hc (by simp)
    · by_cases hold : e.addedAt + mkc.maxAge < now
      · rw [Get_expired now mkc keyID e hg hA hold]
        refine ⟨fun j hj => ?_, fun hne => ?_, fun _ => rfl⟩
        · exact mapGet_mapDelete_ne j keyID mkc.entries fun h => hj h.symm
        · exact absurd rfl hne
      · rw [Get_hit_fresh now mkc keyID e hg hA (not_lt.1 hold)]
        refine ⟨fun j hj => rfl, fun _ => rfl, fun hc => ?_⟩
        exact absurd hc (by simp)

/-- Witness for C9 on a concrete cache holding one entry, at a distinct
identifier j = "b". -/
theorem C9_witness :
    ("b" ≠ "a") ∧
      mapGet "b" ((Get 1 sampleCache "a").2).entries =
        mapGet "b" sampleCache.entries :=
  ⟨by decide, (C9_get_frame 1 sampleCache "a").1 "b" (by decide)⟩

/-- Claim C2 counterexample: the claim asserts that a read at elapsed time
t ≥ D fails with Expired, but at exactly t = D (entry inserted at 0, maxAge
D = 5, read at now = 5, so age 5 ≥ 5) the code's strict After comparison
makes Get a hit, not Expired. -/
theorem C2_counterexample :
    ((5 : Int) - 0 ≥ 5) ∧
      (Get 5 sampleCache "a").1 = Except.ok sampleKey ∧
      (Get 5 sampleCache "a").1 ≠ Except.error CacheErr.keyExpired := by
  refine ⟨by decide, by decide, by decide⟩

/-- Claim C2 amended: with expiry checking active (max-age D not the
no-expiry sentinel), a Get at elapsed time t ≤ D since insertion returns
the stored key as a hit; a Get at elapsed time t > D (strictly) fails with
Expired and deletes the entry, so an immediately following Get on the same
identifier fails with NotFound, not Expired. -/
theorem C2_expiry_monotonicity (mkc : memoryKeyCacher) (keyID : String)
    (e : keyCacherEntry)
    (hg : mapGet keyID mkc.entries = some e)
    (hA : mkc.maxAge ≠ MaxAgeNoCheck)
    (hnd : nodupKeys mkc.entries) (now : Int) :
    (now - e.addedAt ≤ mkc.maxAge →
      Get now mkc keyID = (Except.ok e.webKey, mkc)) ∧
      (now - e.addedAt > mkc.maxAge →
        Get now mkc keyID =
          (Except.error CacheErr.keyExpired,
            { mkc with entries := mapDelete keyID mkc.entries }) ∧
        ∀ now2 : Int,
          Get now2 { mkc with entries := mapDelete keyID mkc.entries } keyID =
            (Except.error CacheErr.noKeyFound,
              { mkc with entries := mapDelete keyID mkc.entries })) := by
  constructor
  · intro hfresh
    exact Get_hit_fresh now mkc keyID e hg hA (by omega)
  · intro hold
    refine ⟨Get_expired now mkc keyID e hg hA (by omega), fun now2 => ?_⟩
    exact Get_absent now2 _ keyID (mapGet_mapDelete_self keyID mkc.entries hnd)

/-- Witness for the amended C2 on a concrete cache: a hit at age 3 ≤ 5, an
Expired read at age 6 > 5, and the follow-up NotFound. -/
theorem C2_witness :
    (Get 3 sampleCache "a" = (Except.ok sampleKey, sampleCache)) ∧
      (Get 6 sampleCache "a" =
        (Except.error CacheErr.keyExpired,
          { sampleCache with entries := mapDelete "a" sampleCache.entries })) ∧
      Get 7 { sampleCache with entries := mapDelete "a" sampleCache.entries }
          "a" =
        (Except.error CacheErr.noKeyFound,
          { sampleCache with entries := mapDelete "a" sampleCache.entries }) :=
  ⟨(C2_expiry_monotonicity sampleCache "a" ⟨0, sampleKey⟩ (by decide)
      (by decide) (by simp [nodupKeys, sampleCache]) 3).1 (by decide),
    ((C2_expiry_monotonicity sampleCache "a" ⟨0, sampleKey⟩ (by decide)
      (by decide) (by simp [nodupKeys, sampleCache]) 6).2 (by decide)).1,
    ((C2_expiry_monotonicity sampleCache "a" ⟨0, sampleKey⟩ (by decide)
      (by decide) (by simp [nodupKeys, sampleCache]) 6).2 (by decide)).2 7⟩

/-- Claim C3 counterexample: a cache with max-size = -1 (the unbounded
sentinel) but finite max-age 0 holding an entry inserted at time 0 does
return Expired at time 1, so max-size = -1 does not gate expiry checking:
Get only tests the max-age sentinel. -/
theorem C3_counterexample :
    sampleCacheUnboundedTTL.maxSize = MaxSizeNoCheck ∧
      (Get 1 sampleCacheUnboundedTTL "a").1 =
        Except.error CacheErr.keyExpired := by
  refine ⟨rfl, by decide⟩

/-- Claim C3 amended: expiry is gated by the max-age sentinel alone.  For
every cache whose max-age is the no-expiry sentinel MaxAgeNoCheck, Get never
evaluates expiry: every present entry is returned as a hit regardless of its
age and the cache is unchanged, and Get never returns Expired — whatever
max-size is (in particular in persistent mode).  A cache with max-size = -1
but a finite max-age does evaluate expiry. -/
theorem C3_noexpiry_sentinel_gates_expiry (now : Int) (mkc : memoryKeyCacher)
    (keyID : String) (hA : mkc.maxAge = MaxAgeNoCheck) :
    (∀ e : keyCacherEntry, mapGet keyID mkc.entries = some e →
      Get now mkc keyID = (Except.ok e.webKey, mkc)) ∧
      (Get now mkc keyID).1 ≠ Except.error CacheErr.keyExpired := by
  refine ⟨fun e hg => Get_hit_noCheck now mkc keyID e hg hA, ?_⟩
  cases hg : mapGet keyID mkc.entries with
  | none =>
    rw [Get_absent now mkc keyID hg]
    simp
  | some e =>
    rw [Get_hit_noCheck now mkc keyID e hg hA]
    simp

/-- Witness for the amended C3: a very old entry (inserted at time -1000) in
a cache with the no-expiry sentinel is still a hit at time 1000. -/
theorem C3_witness :
    mapGet "a" sampleCacheNoExpiry.entries = some ⟨-1000, sampleKey⟩ ∧
      Get 1000 sampleCacheNoExpiry "a" =
        (Except.ok sampleKey, sampleCacheNoExpiry) :=
  ⟨by decide,
    (C3_noexpiry_sentinel_gates_expiry 1000 sampleCacheNoExpiry "a"
      (by decide)).1 ⟨-1000, sampleKey⟩ (by decide)⟩

instance (l : List (String × keyCacherEntry)) : Decidable (nodupKeys l) :=
  inferInstanceAs
    (Decidable (l.Pairwise fun a b : String × keyCacherEntry => a.1 ≠ b.1))

/-- The returned value of Add depends only on the addingKey selection: the
error ErrNoKeyFound when its Key material is nil, the key itself
otherwise. -/
theorem Add_fst (tIns tOvf : Int) (mkc : memoryKeyCacher) (keyID : String)
    (ks : List JSONWebKey) :
    (Add tIns tOvf mkc keyID ks).1 =
      if (findAddingKey keyID ks).Key = none then
        Except.error CacheErr.noKeyFound
      else
        Except.ok (findAddingKey keyID ks) := by
  by_cases hms : mkc.maxSize = MaxSizeNoCheck
  · rw [Add_unbounded tIns tOvf mkc keyID ks hms]
  · rw [Add_bounded tIns tOvf mkc keyID ks hms]
    by_cases hk : (findAddingKey keyID ks).Key = none <;> simp [hk]

/-- In unbounded mode the final state of Add is the bulk insertion of the
whole key set, whatever the returned value is. -/
theorem Add_unbounded_snd (tIns tOvf : Int) (mkc : memoryKeyCacher)
    (keyID : String) (ks : List JSONWebKey)
    (hms : mkc.maxSize = MaxSizeNoCheck) :
    (Add tIns tOvf mkc keyID ks).2 =
      { mkc with entries := insertAll tIns ks mkc.entries } := by
  rw [Add_unbounded tIns tOvf mkc keyID ks hms]

/-- With pairwise distinct identifiers, the addingKey selection returns the
unique candidate carrying the requested identifier. -/
theorem findAddingKey_match (keyID : String) (c : JSONWebKey)
    (ks : List JSONWebKey) (hks : ks.Pairwise fun a b => a.KeyID ≠ b.KeyID)
    (hc : c ∈ ks) (hck : c.KeyID = keyID) :
    findAddingKey keyID ks = c :=
  findAddingKeyFrom_match keyID c ks hks hc hck _

/-- The addingKey selection is either the zero web key (no candidate
matched) or a candidate of the set carrying the requested identifier. -/
theorem findAddingKey_cases (keyID : String) (ks : List JSONWebKey) :
    findAddingKey keyID ks = { KeyID := "", Key := none } ∨
      ∃ c ∈ ks, findAddingKey keyID ks = c ∧ c.KeyID = keyID :=
  findAddingKeyFrom_cases keyID ks _

/-- Claim C7: Add(identifier, key-set) returns NotFound if and only if no
candidate in the key set is a genuine match for the requested identifier —
identifier equality together with non-nil key material; a candidate whose
identifier coincides but whose key material is nil does not count.  The
key set carries the data model's invariant of pairwise distinct
identifiers. -/
theorem C7_add_notfound_iff_no_genuine_match (tIns tOvf : Int)
    (mkc : memoryKeyCacher) (keyID : String) (ks : List JSONWebKey)
    (hks : ks.Pairwise fun a b => a.KeyID ≠ b.KeyID) :
    (Add tIns tOvf mkc keyID ks).1 = Except.error CacheErr.noKeyFound ↔
      ∀ c ∈ ks, ¬(c.KeyID = keyID ∧ c.Key ≠ none) := by
  rw [Add_fst]
  constructor
  · intro h c hc hmatch
    have hfk : findAddingKey keyID ks = c :=
      findAddingKey_match keyID c ks hks hc hmatch.1
    rw [hfk] at h
    by_cases hcn : c.Key = none
    · exact hmatch.2 hcn
    · rw [if_neg hcn] at h
      exact Except.noConfusion h
  · intro hno
    rcases findAddingKey_cases keyID ks with h0 | ⟨c, hc, hres, hck⟩
    · rw [h0]
      simp
    · have hcn : c.Key = none := by
        by_contra hcn
        exact hno c hc ⟨hck, hcn⟩
      rw [hres, hcn]
      simp

/-- Witness for C7: requested identifier "b" occurs in the key set but with
nil key material, so Add reports NotFound. -/
theorem C7_witness :
    ((Add 0 1 (NewMemoryKeyCacher 600 3) "b"
        [⟨"a", some "x"⟩, ⟨"b", none⟩]).1 =
      Except.error CacheErr.noKeyFound ↔
      ∀ c ∈ ([⟨"a", some "x"⟩, ⟨"b", none⟩] : List JSONWebKey),
        ¬(c.KeyID = "b" ∧ c.Key ≠ none)) :=
  C7_add_notfound_iff_no_genuine_match 0 1 (NewMemoryKeyCacher 600 3) "b"
    [⟨"a", some "x"⟩, ⟨"b", none⟩] (by decide)

/-- Claim C4: in persistent/unbounded mode (max-size = -1), Add inserts
every candidate of the key set (pairwise distinct identifiers) with
inserted-at = tIns, and each is retrievable via Get immediately after
(read at time tIns), whether or not its identifier matches the requested
one; when no candidate genuinely matches the requested identifier the Add
call returns NotFound although the insertions have still occurred.  The
max-age is a valid configuration (the sentinel, or a non-negative
duration), so the immediate re-read is not deleted as expired. -/
theorem C4_persistent_add_inserts_all (tIns tOvf : Int)
    (mkc : memoryKeyCacher) (keyID : String) (ks : List JSONWebKey)
    (hms : mkc.maxSize = MaxSizeNoCheck)
    (hage : mkc.maxAge = MaxAgeNoCheck ∨ 0 ≤ mkc.maxAge)
    (hks : ks.Pairwise fun a b => a.KeyID ≠ b.KeyID) :
    (∀ c ∈ ks,
      mapGet c.KeyID ((Add tIns tOvf mkc keyID ks).2).entries =
          some ⟨tIns, c⟩ ∧
        (Get tIns ((Add tIns tOvf mkc keyID ks).2) c.KeyID).1 =
          Except.ok c) ∧
      ((∀ c ∈ ks, c.KeyID = keyID → c.Key = none) →
        (Add tIns tOvf mkc keyID ks).1 =
          Except.error CacheErr.noKeyFound) := by
  constructor
  · intro c hc
    have hg : mapGet c.KeyID
        ({ mkc with entries := insertAll tIns ks mkc.entries } :
          memoryKeyCacher).entries = some ⟨tIns, c⟩ :=
      mapGet_insertAll_mem tIns c ks hks hc mkc.entries
    rw [Add_unbounded_snd tIns tOvf mkc keyID ks hms]
    refine ⟨hg, ?_⟩
    by_cases hA1 : mkc.maxAge = MaxAgeNoCheck
    · rw [Get_hit_noCheck tIns
        { mkc with entries := insertAll tIns ks mkc.entries } c.KeyID
        ⟨tIns, c⟩ hg hA1]
    · have hA2 : 0 ≤ mkc.maxAge := hage.resolve_left hA1
      rw [Get_hit_fresh tIns
        { mkc with entries := insertAll tIns ks mkc.entries } c.KeyID
        ⟨tIns, c⟩ hg hA1 (show tIns ≤ tIns + mkc.maxAge by omega)]
  · intro hno
    rw [Add_fst]
    rcases findAddingKey_cases keyID ks with h0 | ⟨c, hc, hres, hck⟩
    · rw [h0]
      simp
    · rw [hres, hno c hc hck]
      simp

/-- Witness for C4: the persistent cacher ingests both candidates; the
requested identifier "t1" is present with nil key material, so the call
returns NotFound, yet "t1" (and "t2") are retrievable. -/
theorem C4_witness :
    (mapGet "t1" ((Add 0 0 newMemoryPersistentKeyCacher "t1"
        [⟨"t1", none⟩, ⟨"t2", some "x"⟩]).2).entries =
      some ⟨0, ⟨"t1", none⟩⟩) ∧
      ((Get 0 ((Add 0 0 newMemoryPersistentKeyCacher "t1"
          [⟨"t1", none⟩, ⟨"t2", some "x"⟩]).2) "t1").1 =
        Except.ok ⟨"t1", none⟩) ∧
      (Add 0 0 newMemoryPersistentKeyCacher "t1"
          [⟨"t1", none⟩, ⟨"t2", some "x"⟩]).1 =
        Except.error CacheErr.noKeyFound := by
  have h := C4_persistent_add_inserts_all 0 0 newMemoryPersistentKeyCacher
    "t1" [⟨"t1", none⟩, ⟨"t2", some "x"⟩] (by decide) (Or.inl (by decide))
    (by decide)
  exact ⟨(h.1 ⟨"t1", none⟩ (by decide)).1, (h.1 ⟨"t1", none⟩ (by decide)).2,
    h.2 (by decide)⟩

/-- Claim C10: the non-nil key material requirement applies only to Add's
returned target key.  In persistent/unbounded mode a candidate with nil
key material is still inserted, and a Get for its identifier immediately
after succeeds, returning the entry whose key material is empty. -/
theorem C10_nil_key_cached_in_unbounded_mode (tIns tOvf : Int)
    (mkc : memoryKeyCacher) (keyID : String) (ks : List JSONWebKey)
    (c : JSONWebKey)
    (hms : mkc.maxSize = MaxSizeNoCheck)
    (hage : mkc.maxAge = MaxAgeNoCheck ∨ 0 ≤ mkc.maxAge)
    (hks : ks.Pairwise fun a b => a.KeyID ≠ b.KeyID)
    (hc : c ∈ ks) (hnil : c.Key = none) :
    mapGet c.KeyID ((Add tIns tOvf mkc keyID ks).2).entries =
        some ⟨tIns, c⟩ ∧
      (Get tIns ((Add tIns tOvf mkc keyID ks).2) c.KeyID).1 =
        Except.ok c ∧
      c.Key = none := by
  have hg : mapGet c.KeyID
      ({ mkc with entries := insertAll tIns ks mkc.entries } :
        memoryKeyCacher).entries = some ⟨tIns, c⟩ :=
    mapGet_insertAll_mem tIns c ks hks hc mkc.entries
  rw [Add_unbounded_snd tIns tOvf mkc keyID ks hms]
  refine ⟨hg, ?_, hnil⟩
  by_cases hA1 : mkc.maxAge = MaxAgeNoCheck
  · rw [Get_hit_noCheck tIns
      { mkc with entries := insertAll tIns ks mkc.entries } c.KeyID
      ⟨tIns, c⟩ hg hA1]
  · have hA2 : 0 ≤ mkc.maxAge := hage.resolve_left hA1
    rw [Get_hit_fresh tIns
      { mkc with entries := insertAll tIns ks mkc.entries } c.KeyID
      ⟨tIns, c⟩ hg hA1 (show tIns ≤ tIns + mkc.maxAge by omega)]

/-- Witness for C10: a nil-key candidate added under an unrelated requested
identifier is cached and retrievable. -/
theorem C10_witness :
    mapGet "t1" ((Add 0 0 newMemoryPersistentKeyCacher "zzz"
        [⟨"t1", none⟩]).2).entries = some ⟨0, ⟨"t1", none⟩⟩ ∧
      (Get 0 ((Add 0 0 newMemoryPersistentKeyCacher "zzz"
          [⟨"t1", none⟩]).2) "t1").1 = Except.ok ⟨"t1", none⟩ ∧
      (⟨"t1", none⟩ : JSONWebKey).Key = none :=
  C10_nil_key_cached_in_unbounded_mode 0 0 newMemoryPersistentKeyCacher "zzz"
    [⟨"t1", none⟩] ⟨"t1", none⟩ (by decide) (Or.inl (by decide)) (by decide)
    (by decide) (by decide)

/-- Claim C5: on a zero-capacity cache (max-size = 0, mapping empty as
constructed), an Add whose key set genuinely matches the requested
identifier returns the matched key as success, yet the mapping ends empty —
the just-inserted entry is its own eviction victim — so a Get for that same
identifier immediately after (at any time) fails with NotFound.  tIns < tOvf
states that the overflow handler's clock read is strictly after the
insertion's. -/
theorem C5_zero_capacity_self_eviction (tIns tOvf : Int)
    (mkc : memoryKeyCacher) (keyID : String) (ks : List JSONWebKey)
    (c : JSONWebKey)
    (hms : mkc.maxSize = 0)
    (hemp : mkc.entries = [])
    (hclock : tIns < tOvf)
    (hks : ks.Pairwise fun a b => a.KeyID ≠ b.KeyID)
    (hc : c ∈ ks) (hck : c.KeyID = keyID) (hkey : c.Key ≠ none) :
    (Add tIns tOvf mkc keyID ks).1 = Except.ok c ∧
      ((Add tIns tOvf mkc keyID ks).2).entries = [] ∧
      ∀ now, Get now ((Add tIns tOvf mkc keyID ks).2) keyID =
        (Except.error CacheErr.noKeyFound, (Add tIns tOvf mkc keyID ks).2) := by
  have hfk : findAddingKey keyID ks = c :=
    findAddingKey_match keyID c ks hks hc hck
  have hms' : mkc.maxSize ≠ MaxSizeNoCheck := by
    rw [hms]
    decide
  have hA : Add tIns tOvf mkc keyID ks =
      (Except.ok c,
        handleOverflow tOvf
          { mkc with entries := mapInsert c.KeyID ⟨tIns, c⟩ mkc.entries }) := by
    rw [Add_bounded tIns tOvf mkc keyID ks hms', hfk, if_neg hkey]
  have hstate : handleOverflow tOvf
      { mkc with entries := mapInsert c.KeyID ⟨tIns, c⟩ mkc.entries } =
      { mkc with entries := [] } := by
    rw [hemp]
    simp [handleOverflow, mapInsert, oldestScan, mapDelete, hms, hclock]
  rw [hA, hstate]
  exact ⟨rfl, rfl, fun now =>
    Get_absent now { mkc with entries := [] } keyID rfl⟩

/-- Witness for C5 on a concrete zero-capacity cache. -/
theorem C5_witness :
    (Add 0 1 (NewMemoryKeyCacher 600 0) "a" [⟨"a", some "x"⟩]).1 =
        Except.ok ⟨"a", some "x"⟩ ∧
      ((Add 0 1 (NewMemoryKeyCacher 600 0) "a" [⟨"a", some "x"⟩]).2).entries =
        [] ∧
      Get 2 ((Add 0 1 (NewMemoryKeyCacher 600 0) "a" [⟨"a", some "x"⟩]).2)
          "a" =
        (Except.error CacheErr.noKeyFound,
          (Add 0 1 (NewMemoryKeyCacher 600 0) "a" [⟨"a", some "x"⟩]).2) := by
  have h := C5_zero_capacity_self_eviction 0 1 (NewMemoryKeyCacher 600 0) "a"
    [⟨"a", some "x"⟩] ⟨"a", some "x"⟩ (by decide) (by decide) (by decide)
    (by decide) (by decide) (by decide) (by decide)
  exact ⟨h.1, h.2.1, h.2.2 2⟩

/-- Sample bounded cache in overflow: two entries with distinct insertion
times 5 and 3 against max-size 1. -/
def sampleOverflowCache : memoryKeyCacher :=
  ⟨[("a", ⟨5, ⟨"a", some "x"⟩⟩), ("b", ⟨3, ⟨"b", some "y"⟩⟩)], 600, 1⟩

/-- Claim C6: whenever a bounded cache is in overflow (0 ≤ max-size <
entry count), the overflow handler deletes exactly one entry, and when all
entries have pairwise distinct inserted-at timestamps the deleted entry is
the one with the strictly earliest timestamp; every other entry is left in
place.  The hypothesis that every stored timestamp is strictly before the
handler's clock read tOvf reflects insertions through a strictly advancing
monotone clock. -/
theorem C6_overflow_evicts_unique_oldest (tOvf : Int) (mkc : memoryKeyCacher)
    (hnd : nodupKeys mkc.entries)
    (hbound : 0 ≤ mkc.maxSize)
    (hov : mkc.maxSize < (mkc.entries.length : Int))
    (hclock : ∀ p ∈ mkc.entries, p.2.addedAt < tOvf)
    (hdist : mkc.entries.Pairwise fun a b => a.2.addedAt ≠ b.2.addedAt) :
    ∃ p ∈ mkc.entries,
      (handleOverflow tOvf mkc).entries = mapDelete p.1 mkc.entries ∧
        (handleOverflow tOvf mkc).entries.length + 1 = mkc.entries.length ∧
        mapGet p.1 (handleOverflow tOvf mkc).entries = none ∧
        (∀ q ∈ mkc.entries, q ≠ p → p.2.addedAt < q.2.addedAt) ∧
        (∀ j, j ≠ p.1 →
          mapGet j (handleOverflow tOvf mkc).entries =
            mapGet j mkc.entries) := by
  have hne : mkc.entries ≠ [] := by
    intro h
    rw [h] at hov
    simp at hov
    omega
  obtain ⟨p0, hp0⟩ := List.exists_mem_of_ne_nil mkc.entries hne
  obtain ⟨p, hp, hscan⟩ :=
    oldestScan_found tOvf mkc.entries ⟨p0, hp0, hclock p0 hp0⟩
  have hHO : (handleOverflow tOvf mkc).entries = mapDelete p.1 mkc.entries := by
    simp only [handleOverflow, hov, ite_true, if_pos]
    rw [hscan]
  have hpairmem : (p.1, p.2) ∈ mkc.entries := by
    simpa using hp
  have hpres : mapGet p.1 mkc.entries ≠ none :=
    mapGet_ne_none_of_mem p.1 p.2 mkc.entries hpairmem
  refine ⟨p, hp, hHO, ?_, ?_, ?_, ?_⟩
  · rw [hHO]
    exact length_mapDelete p.1 mkc.entries hpres
  · rw [hHO]
    exact mapGet_mapDelete_self p.1 mkc.entries hnd
  · intro q hq hqp
    have hle : p.2.addedAt ≤ q.2.addedAt := by
      have h1 := oldestScan_snd_le_mem mkc.entries ("", tOvf) q hq
      rw [hscan] at h1
      exact h1
    have hsym :
        Symmetric (fun a b : String × keyCacherEntry =>
          a.2.addedAt ≠ b.2.addedAt) := fun a b h => h.symm
    have hne2 : p.2.addedAt ≠ q.2.addedAt :=
      List.Pairwise.forall hsym hdist hp hq (fun he => hqp he.symm)
    omega
  · intro j hj
    rw [hHO]
    exact mapGet_mapDelete_ne j p.1 mkc.entries (Ne.symm hj)

/-- Witness for C6 on the sample overflow cache at clock 10: the victim is
the entry inserted at time 3. -/
theorem C6_witness :
    ∃ p ∈ sampleOverflowCache.entries,
      (handleOverflow 10 sampleOverflowCache).entries =
          mapDelete p.1 sampleOverflowCache.entries ∧
        (handleOverflow 10 sampleOverflowCache).entries.length + 1 =
          sampleOverflowCache.entries.length ∧
        mapGet p.1 (handleOverflow 10 sampleOverflowCache).entries = none ∧
        (∀ q ∈ sampleOverflowCache.entries, q ≠ p →
          p.2.addedAt < q.2.addedAt) ∧
        (∀ j, j ≠ p.1 →
          mapGet j (handleOverflow 10 sampleOverflowCache).entries =
            mapGet j sampleOverflowCache.entries) :=
  C6_overflow_evicts_unique_oldest 10 sampleOverflowCache (by decide)
    (by decide) (by decide) (by decide) (by decide)

end auth0
